import Mathlib

/-!
Verification of the code-kingdom ownership-attribution and packing core.

The TypeScript sources are embedded shallowly:

* JavaScript strings are modelled as `List Char` (one entry per code unit;
  for the ASCII data of all concrete inputs this coincides with UTF-16),
  so that every operation is structural and computable by the kernel.
* Byte buffers are `List Nat`.
* Streams and other effectful inputs (file reads, git output) are passed
  as explicit values; fallible reads are `Option`.
* JavaScript numbers in the packing engine are modelled as an arbitrary
  linearly ordered commutative ring (the engine only adds, subtracts,
  multiplies by constants and compares), instantiated at `ℤ` or `ℚ`
  for concrete runs.
-/

/-- JavaScript whitespace test used by `String.prototype.trim`:
space, tab, line feed, carriage return, vertical tab, form feed. -/
def jsIsSpace (c : Char) : Bool :=
  c = ' ' || c = '\t' || c = '\n' || c = '\r' || c = '\x0b' || c = '\x0c'

/-- Model of `s.trim()`: drop whitespace from both ends. -/
def jsTrim (s : List Char) : List Char :=
  ((s.dropWhile jsIsSpace).reverse.dropWhile jsIsSpace).reverse

/-- Model of `stdout.split('\n')`: split at every line feed, keeping empty
pieces (a trailing newline yields a trailing empty string). -/
def jsSplitNl : List Char → List (List Char)
  | [] => [[]]
  | c :: rest =>
    if c = '\n' then [] :: jsSplitNl rest
    else
      match jsSplitNl rest with
      | [] => [[c]]
      | l :: ls => (c :: l) :: ls

/-! ### countLines (fileTree countLines)

The source counts line feed bytes over the chunks of a read stream,
remembers whether any data arrived and the last byte of the last chunk
(`buffer[buffer.length - 1]`, which is `undefined` — here `none` — for an
empty chunk), and adds one trailing line when the stream was non-empty and
did not end in a line feed. -/

structure CountState where
  lineCount : Nat
  hasData : Bool
  lastByte : Option Nat
deriving DecidableEq, Repr

/-- One `data` event of the stream in `countLines`. -/
def clStep (s : CountState) (chunk : List Nat) : CountState :=
  { lineCount := s.lineCount + chunk.count 10
    hasData := true
    lastByte := chunk.getLast? }

/-- Model of `countLines`: fold the chunks, then the `end` handler. -/
def countLines (chunks : List (List Nat)) : Nat :=
  let s := chunks.foldl clStep ⟨0, false, none⟩
  if s.hasData ∧ s.lastByte ≠ some 10 then s.lineCount + 1 else s.lineCount

/-! ### git blame parsing (fileTree getBlameSegments) -/

structure BlameSegment where
  author : List Char
  lines : Nat
deriving DecidableEq, Repr

/-- The scan over `stdout.split('\n')` in `getBlameSegments`: an
`author ` header updates the current author (trimmed, empty defaulting to
`Unknown`); a tab-prefixed content line records one line for the current
author (again defaulting to `Unknown` when none was seen). -/
def extractAuthors (cur : List Char) : List (List Char) → List (List Char)
  | [] => []
  | line :: rest =>
    if ("author ".toList).isPrefixOf line then
      let a := jsTrim (line.drop 7)
      extractAuthors (if a = [] then "Unknown".toList else a) rest
    else if ['\t'].isPrefixOf line then
      (if cur = [] then "Unknown".toList else cur) :: extractAuthors cur rest
    else
      extractAuthors cur rest

/-- The run-length-encoding loop of `getBlameSegments`: `last` and `count`
are the pending run, the list argument the remaining authors. -/
def rleFrom (last : List Char) (count : Nat) : List (List Char) → List BlameSegment
  | [] => [⟨last, count⟩]
  | a :: rest =>
    if a = last then rleFrom last (count + 1) rest
    else ⟨last, count⟩ :: rleFrom a 1 rest

/-- Model of `getBlameSegments` applied to the captured `git blame
--line-porcelain` output: `none` when no line was attributed. -/
def getBlameSegments (stdout : List Char) : Option (List BlameSegment) :=
  match extractAuthors [] (jsSplitNl stdout) with
  | [] => none
  | a :: rest => some (rleFrom a 1 rest)

/-- The number of tab-prefixed content lines of a blame output: git emits
exactly one per physical line of the blamed file. -/
def tabLineCount (stdout : List Char) : Nat :=
  ((jsSplitNl stdout).filter fun l => ['\t'].isPrefixOf l).length

/-- Sum of the segments' line counts. -/
def segsLines (segs : List BlameSegment) : Nat :=
  (segs.map fun s => s.lines).sum

/-! ### ignore resolution (fileTree shouldIgnorePath)

Paths are modelled as lists of components (no separators inside a
component).  `path.relative(base, p)` on resolved absolute paths drops the
common component prefix, prepends one `..` per remaining base component and
joins with `/`; the source then skips the entry when the resulting string
starts with `..`, appends a trailing `/` for directories, and lets the
matcher's `ignored` / `unignored` flags update the running decision. The
backslash replacement of the source is the identity here. -/

structure TestResult where
  ignored : Bool
  unignored : Bool

structure IgnoreEntry where
  base : List (List Char)
  test : List Char → TestResult

/-- Length of the longest common component prefix of two paths. -/
def commonPrefixLen : List (List Char) → List (List Char) → Nat
  | a :: as, b :: bs => if a = b then commonPrefixLen as bs + 1 else 0
  | _, _ => 0

/-- The components of `path.relative(base, p)`. -/
def relativeParts (base p : List (List Char)) : List (List Char) :=
  let c := commonPrefixLen base p
  List.replicate (base.length - c) ['.', '.'] ++ p.drop c

/-- The string `path.relative(base, p)` (forward-slash separators). -/
def relativeString (base p : List (List Char)) : List Char :=
  List.intercalate ['/'] (relativeParts base p)

/-- `p` lies inside the directory `base` (component-prefix containment). -/
def baseContains (base p : List (List Char)) : Prop :=
  p.take base.length = base

instance (base p : List (List Char)) : Decidable (baseContains base p) := by
  unfold baseContains; infer_instance

/-- The relative path actually handed to an entry's matcher: trailing `/`
appended for directories. -/
def relFor (e : IgnoreEntry) (p : List (List Char)) (isDir : Bool) : List Char :=
  let rel := relativeString e.base p
  if isDir ∧ ¬(['/'].isSuffixOf rel) then rel ++ ['/'] else rel

/-- One iteration of the entry loop in `shouldIgnorePath`. -/
def ignoreStep (p : List (List Char)) (isDir : Bool) (ignored : Bool) (e : IgnoreEntry) : Bool :=
  let rel := relativeString e.base p
  if ['.', '.'].isPrefixOf rel then ignored
  else
    let r := e.test (relFor e p isDir)
    let ign1 := if r.ignored then true else ignored
    if r.unignored then false else ign1

/-- Model of `shouldIgnorePath`: fold the entry stack, outermost first,
starting from `false`. -/
def shouldIgnorePath (p : List (List Char)) (isDir : Bool) (stack : List IgnoreEntry) : Bool :=
  stack.foldl (ignoreStep p isDir) false

/-- The assertion one entry contributes for a path, in the spec's sense:
`none` when the entry is skipped or its matcher asserts nothing, otherwise
the decision it would force (the source applies `ignored` before
`unignored`, so `unignored` wins inside one entry). -/
def entryAssertion (p : List (List Char)) (isDir : Bool) (e : IgnoreEntry) : Option Bool :=
  let rel := relativeString e.base p
  if ['.', '.'].isPrefixOf rel then none
  else
    let r := e.test (relFor e p isDir)
    if r.unignored then some false else if r.ignored then some true else none

/-- The spec's decision procedure, written from its words: collect the
assertions in stack order, the last one wins, none means not ignored. -/
def specDecision (p : List (List Char)) (isDir : Bool) (stack : List IgnoreEntry) : Bool :=
  ((stack.filterMap (entryAssertion p isDir)).getLast?).getD false

/-! ### text/binary classification and the file branch of buildNode -/

/-- Model of `isTextFile`: `openResult` is the file's bytes when the open
succeeded, `none` when it failed (the source's catch returns `false`).
Only the first 8192 bytes are read and scanned for a NUL byte. -/
def isTextFile (openResult : Option (List Nat)) : Bool :=
  match openResult with
  | none => false
  | some bytes => (bytes.take 8192).all fun b => b != 0

/-! ### the file tree -/

inductive NodeType where
  | file
  | folder
deriving DecidableEq, Repr

/-- A node of the file tree. Fields follow the source's `FileNode`
interface; optional fields are `Option`, a missing `children` is `[]`. -/
inductive FileNode where
  | mk (name path : List Char) (ntype : NodeType) (isText : Option Bool)
      (lineCount : Option Nat) (blameSegments : Option (List BlameSegment))
      (children : List FileNode)
deriving Repr

def FileNode.name : FileNode → List Char
  | .mk n _ _ _ _ _ _ => n

def FileNode.path : FileNode → List Char
  | .mk _ p _ _ _ _ _ => p

def FileNode.ntype : FileNode → NodeType
  | .mk _ _ t _ _ _ _ => t

def FileNode.isText : FileNode → Option Bool
  | .mk _ _ _ it _ _ _ => it

def FileNode.lineCount : FileNode → Option Nat
  | .mk _ _ _ _ lc _ _ => lc

def FileNode.blameSegments : FileNode → Option (List BlameSegment)
  | .mk _ _ _ _ _ bs _ => bs

def FileNode.children : FileNode → List FileNode
  | .mk _ _ _ _ _ _ cs => cs

/-- The file branch of `buildNode`: a failed `stat` skips the entry, an
ignored path is dropped, otherwise the node records the classification and,
for text files, the line count of the streamed content. -/
def buildFileNode (name p : List Char) (statOk ignored : Bool)
    (openResult : Option (List Nat)) (chunks : List (List Nat)) : Option FileNode :=
  if !statOk then none
  else if ignored then none
  else
    let textFile := isTextFile openResult
    some (.mk name p .file (some textFile)
      (if textFile then some (countLines chunks) else none) none [])

/-! ### attribution pass (fileTree addBlameInfo)

The source collects every node with `type === 'file'` (never descending
into a file node's children) and, for those with a truthy `isText`, attaches
the blame segments when the query returns a non-empty list.  Each node is
visited once and only its own slot written, so the pass is the following
structural map. `blame` stands for `getBlameSegments` applied to the node's
path (`null` — here `none` — on any git failure). -/

mutual

def addBlameInfo (blame : List Char → Option (List BlameSegment)) : FileNode → FileNode
  | .mk n p t it lc bs cs =>
    match t with
    | .file =>
      if it = some true then
        match blame p with
        | some segs =>
          if segs.length > 0 then .mk n p t it lc (some segs) cs
          else .mk n p t it lc bs cs
        | none => .mk n p t it lc bs cs
      else .mk n p t it lc bs cs
    | .folder => .mk n p t it lc bs (addBlameInfoList blame cs)

def addBlameInfoList (blame : List Char → Option (List BlameSegment)) :
    List FileNode → List FileNode
  | [] => []
  | c :: cs => addBlameInfo blame c :: addBlameInfoList blame cs

end

mutual

/-- Frame relation between a tree and its attributed version: every field
of every node is unchanged except `blameSegments`, which may only change on
a text file node and only to a non-empty result of the blame query; a node
that is not a text file keeps its `blameSegments`. -/
def frameRel (blame : List Char → Option (List BlameSegment)) : FileNode → FileNode → Prop
  | .mk n p t it lc bs cs, .mk n' p' t' it' lc' bs' cs' =>
    n' = n ∧ p' = p ∧ t' = t ∧ it' = it ∧ lc' = lc ∧
    (bs' = bs ∨ (t = .file ∧ it = some true ∧
      ∃ segs, blame p = some segs ∧ segs.length > 0 ∧ bs' = some segs)) ∧
    (¬(t = .file ∧ it = some true) → bs' = bs) ∧
    frameRelList blame cs cs'

def frameRelList (blame : List Char → Option (List BlameSegment)) :
    List FileNode → List FileNode → Prop
  | [], [] => True
  | c :: cs, c' :: cs' => frameRel blame c c' ∧ frameRelList blame cs cs'
  | _, _ => False

end

/-! ### author colors (webview colorForAuthor) -/

/-- JavaScript `| 0`: wrap an integer to signed 32-bit. -/
def toInt32 (n : Int) : Int :=
  (n + 2 ^ 31) % 2 ^ 32 - 2 ^ 31

/-- The rolling hash `hash = (hash * 31 + charCode) | 0` over the author's
characters. -/
def jsHash (author : List Char) : Int :=
  author.foldl (fun h c => toInt32 (h * 31 + c.toNat)) 0

/-- The fallback color string `hsl(hue, 55%, 45%)` with
`hue = abs(hash) % 360`. -/
def hslColor (author : List Char) : List Char :=
  "hsl(".toList ++ (Nat.repr ((jsHash author).natAbs % 360)).toList ++ ", 55%, 45%)".toList

/-- Model of the webview's `colorForAuthor`: the override map is an
association list; a truthy (non-empty) mapped value is returned verbatim,
anything else falls through to the hash-derived color. -/
def colorForAuthor (authorColors : List (List Char × List Char)) (author : List Char) :
    List Char :=
  match authorColors.lookup author with
  | some c => if c ≠ [] then c else hslColor author
  | none => hslColor author

/-! ### cache manager -/

structure CacheManager where
  storageUri : List Char

/-- Model of the `CacheManager` constructor: with no workspace storage it
throws `Workspace storage is not available` (an `Except.error`); the
extension constructs it outside of any try/catch. -/
def cacheManagerConstruct (storageUri : Option (List Char)) : Except (List Char) CacheManager :=
  match storageUri with
  | none => .error "Workspace storage is not available".toList
  | some u => .ok ⟨u⟩

/-- Model of `getBlameCache`: a failed read or a failed parse is caught and
yields `none` (a miss); nothing is thrown. -/
def getBlameCache (readResult : Option (List Char)) (parse : List Char → Option FileNode) :
    Option FileNode :=
  match readResult with
  | none => none
  | some content => parse content

/-- Model of `saveBlameCache`: a write failure is caught and logged, so the
call never propagates an error. -/
def saveBlameCache (writeOk : Bool) : Except (List Char) Unit :=
  match writeOk with
  | _ => .ok ()

/-! ### rectangle packing (webview packMaxRects / pruneFreeRects)

The engine only adds, subtracts, multiplies by the constant gap and
compares, so it is stated over an arbitrary linearly ordered commutative
ring; concrete runs use `ℤ`.  `Rect` carries the `x, y, width, height`
fields of the source's plain objects; input rectangles' `x`/`y` are ignored
and overridden on placement, as the spread `{...rect, x, y}` does. -/

section PackingDefs

variable {α : Type} [LinearOrderedCommRing α]

structure Rect (α : Type) where
  x : α
  y : α
  width : α
  height : α
deriving DecidableEq, Repr

/-- `CONFIG.gap` of the webview script. -/
def gap : α := 4

/-- A rectangle fits a free region. -/
def fits (r f : Rect α) : Prop :=
  r.width ≤ f.width ∧ r.height ≤ f.height

instance (r f : Rect α) : Decidable (fits r f) := by
  unfold fits; infer_instance

/-- The best-area score `min(leftoverX, leftoverY)`. -/
def score (r f : Rect α) : α :=
  min (f.width - r.width) (f.height - r.height)

/-- One comparison of the best-region scan: keep `best` unless `f` (at
index `i`) fits with a strictly smaller score. -/
def bestCandidate (r f : Rect α) (i : Nat) (best : Option (Nat × Rect α × α)) :
    Option (Nat × Rect α × α) :=
  if fits r f then
    match best with
    | none => some (i, f, score r f)
    | some (bi, bf, bs) =>
      if score r f < bs then some (i, f, score r f) else some (bi, bf, bs)
  else best

/-- The index scan for the best (strictly smallest-score) fitting free
region: `i` is the index of the head of the remaining list, `best` the
running `(bestIndex, region, bestScore)`. -/
def findBestAux (r : Rect α) : List (Rect α) → Nat → Option (Nat × Rect α × α) →
    Option (Nat × Rect α × α)
  | [], _, best => best
  | f :: rest, i, best => findBestAux r rest (i + 1) (bestCandidate r f i best)

def findBest (freeRects : List (Rect α)) (r : Rect α) : Option (Nat × Rect α × α) :=
  findBestAux r freeRects 0 none

/-- The containment test of `pruneFreeRects`. -/
def containedIn (a b : Rect α) : Prop :=
  b.x ≤ a.x ∧ b.y ≤ a.y ∧ a.x + a.width ≤ b.x + b.width ∧ a.y + a.height ≤ b.y + b.height

instance (a b : Rect α) : Decidable (containedIn a b) := by
  unfold containedIn; infer_instance

/-- One iteration (index `i`, scanned from the back) of `pruneFreeRects`:
remove the rectangle at `i` when some other index holds a container of it. -/
def pruneStep (l : List (Rect α)) (i : Nat) : List (Rect α) :=
  match l.get? i with
  | none => l
  | some a =>
    if (List.range l.length).any (fun j =>
        j != i && match l.get? j with
          | some b => decide (containedIn a b)
          | none => false) then
      l.eraseIdx i
    else l

/-- The descending index loop of `pruneFreeRects`; removing at index `i`
only displaces later indices, so the loop over the mutating array is the
same as this recursion. -/
def pruneGo : List (Rect α) → Nat → List (Rect α)
  | l, 0 => l
  | l, i + 1 => pruneGo (pruneStep l i) i

def pruneFreeRects (l : List (Rect α)) : List (Rect α) :=
  pruneGo l l.length

/-- The right remainder of a guillotine split. -/
def splitRight (target r : Rect α) : Rect α :=
  ⟨target.x + r.width + gap, target.y, target.width - r.width - gap, r.height⟩

/-- The bottom remainder of a guillotine split. -/
def splitBottom (target r : Rect α) : Rect α :=
  ⟨target.x, target.y + r.height + gap, target.width, target.height - r.height - gap⟩

/-- Append a remainder only when both of its dimensions are positive. -/
def pushPositive (l : List (Rect α)) (f : Rect α) : List (Rect α) :=
  if 0 < f.width ∧ 0 < f.height then l ++ [f] else l

structure PackState (α : Type) where
  freeRects : List (Rect α)
  placed : List (Rect α)
deriving DecidableEq, Repr

/-- Place one rectangle: choose the best fitting free region, or — when
none fits — push the downward extension `(0, totalHeight, targetWidth,
height + gap)` and use it (pushing then splicing the last index leaves the
free list unchanged, which is the `none` branch below); then split, keep
positive remainders and prune. -/
def placeOne (targetWidth totalHeight : α) (st : PackState α) (r : Rect α) : PackState α :=
  match findBest st.freeRects r with
  | some (i, target, _) =>
    ⟨pruneFreeRects
        (pushPositive (pushPositive (st.freeRects.eraseIdx i) (splitRight target r))
          (splitBottom target r)),
      st.placed ++ [⟨target.x, target.y, r.width, r.height⟩]⟩
  | none =>
    let target : Rect α := ⟨0, totalHeight, targetWidth, r.height + gap⟩
    ⟨pruneFreeRects
        (pushPositive (pushPositive st.freeRects (splitRight target r))
          (splitBottom target r)),
      st.placed ++ [⟨target.x, target.y, r.width, r.height⟩]⟩

/-- `rects.slice().sort((a, b) => bMax - aMax)`: stable sort, largest
maximum dimension first. -/
def sortDesc (rects : List (Rect α)) : List (Rect α) :=
  rects.mergeSort fun a b => decide (max b.width b.height ≤ max a.width a.height)

structure Packed (α : Type) where
  width : α
  height : α
  children : List (Rect α)
deriving DecidableEq, Repr

/-- Model of `packMaxRects`. -/
def packMaxRects (rects : List (Rect α)) (targetWidth : α) : Packed α :=
  let totalHeight := (rects.map fun r => r.height).sum + (rects.length : α) * gap
  let final := (sortDesc rects).foldl (placeOne targetWidth totalHeight)
    ⟨[⟨0, 0, targetWidth, totalHeight⟩], []⟩
  ⟨(final.placed.map fun p => p.x + p.width).foldl max 0,
    (final.placed.map fun p => p.y + p.height).foldl max 0,
    final.placed⟩

/-- Two rectangles overlap: their interiors intersect (for rectangles of
positive dimensions). -/
def overlaps (a b : Rect α) : Prop :=
  a.x < b.x + b.width ∧ b.x < a.x + a.width ∧ a.y < b.y + b.height ∧ b.y < a.y + a.height

instance (a b : Rect α) : Decidable (overlaps a b) := by
  unfold overlaps; infer_instance

/-- The vertical room the remaining rectangles still need inside the
initial full-width column: each one's height plus one gap. -/
def needOf (rects : List (Rect α)) : α :=
  (rects.map fun r => r.height + gap).sum

/-- Invariant of the placement loop for target width `W` and initial column
height `H`: free regions have positive dimensions and non-negative
coordinates, free regions and placed rectangles are mutually
non-overlapping, and — while rectangles remain — a full-width band
`(0, Y, W, H - Y)` with enough room for all of them is still free. -/
structure PackInv (W H : α) (st : PackState α) (need : α) : Prop where
  free_pos : ∀ f ∈ st.freeRects, 0 < f.width ∧ 0 < f.height ∧ 0 ≤ f.x ∧ 0 ≤ f.y
  free_disj : st.freeRects.Pairwise fun a b => ¬overlaps a b
  free_placed : ∀ f ∈ st.freeRects, ∀ p ∈ st.placed, ¬overlaps f p
  placed_disj : st.placed.Pairwise fun a b => ¬overlaps a b
  placed_pos : ∀ p ∈ st.placed, 0 ≤ p.x ∧ 0 ≤ p.y
  band : 0 < need → ∃ Y, 0 ≤ Y ∧ (⟨0, Y, W, H - Y⟩ : Rect α) ∈ st.freeRects ∧ need ≤ H - Y

end PackingDefs

/-! ## Theorems -/

/-! ### countLines -/

theorem foldl_clStep_lineCount (chunks : List (List Nat)) (s : CountState) :
    (chunks.foldl clStep s).lineCount = s.lineCount + chunks.flatten.count 10 := by
  induction chunks generalizing s with
  | nil => simp
  | cons c t ih =>
    simp only [List.foldl_cons, ih, clStep, List.flatten_cons, List.count_append]
    omega

theorem foldl_clStep_concat (s : CountState) (l : List (List Nat)) (c : List Nat) :
    (l ++ [c]).foldl clStep s = clStep (l.foldl clStep s) c := by
  rw [List.foldl_append]; rfl

/-- Claim C5: countLines returns the number of line-feed bytes plus one
when the stream is non-empty and does not end in a line feed, for every
chunking of the content into the (always non-empty) data chunks a file
read stream delivers; in particular the spec's three examples hold. -/
theorem countLines_spec (chunks : List (List Nat)) (h : ∀ c ∈ chunks, c ≠ []) :
    countLines chunks =
      chunks.flatten.count 10 +
        (if chunks.flatten ≠ [] ∧ chunks.flatten.getLast? ≠ some 10 then 1 else 0) := by
  rcases List.eq_nil_or_concat chunks with rfl | ⟨l, c, rfl⟩
  · simp [countLines]
  · rw [List.concat_eq_append] at h ⊢
    have hc : c ≠ [] := h c (by simp)
    have hflat : (l ++ [c]).flatten = l.flatten ++ c := by
      simp [List.flatten_append]
    have hcount := foldl_clStep_lineCount (l ++ [c]) ⟨0, false, none⟩
    have hstate : (l ++ [c]).foldl clStep ⟨0, false, none⟩ =
        clStep (l.foldl clStep ⟨0, false, none⟩) c := foldl_clStep_concat _ l c
    obtain ⟨x, hx⟩ : ∃ x, c.getLast? = some x := by
      cases hcl : c.getLast? with
      | none => exact absurd (List.getLast?_eq_none_iff.mp hcl) hc
      | some x => exact ⟨x, rfl⟩
    have hflast : (l ++ [c]).flatten.getLast? = some x := by
      rw [hflat, List.getLast?_append, hx]; rfl
    have hfne : (l ++ [c]).flatten ≠ [] := by
      rw [hflat]
      intro hcontra
      exact hc (List.append_eq_nil.mp hcontra).2
    have hlc := foldl_clStep_lineCount l (⟨0, false, none⟩ : CountState)
    have hS : clStep (List.foldl clStep ⟨0, false, none⟩ l) c =
        ⟨List.count 10 l.flatten + List.count 10 c, true, some x⟩ := by
      simp [clStep, hlc, hx, List.count]
    have hflast' : (l.flatten ++ c).getLast? = some x := by
      rw [List.getLast?_append, hx]; rfl
    have hne' : l.flatten ++ c ≠ [] := fun hco => hc (List.append_eq_nil.mp hco).2
    unfold countLines
    rw [hstate, hS, hflat, List.count_append]
    dsimp only
    rw [hflast']
    by_cases hx10 : x = 10
    · subst hx10
      simp
    · simp [hx10, hne']

theorem countLines_spec_witness :
    countLines [[97, 10, 98], [10, 99]] =
      ([[97, 10, 98], [10, 99]] : List (List Nat)).flatten.count 10 +
        (if ([[97, 10, 98], [10, 99]] : List (List Nat)).flatten ≠ [] ∧
            ([[97, 10, 98], [10, 99]] : List (List Nat)).flatten.getLast? ≠ some 10
          then 1 else 0) :=
  countLines_spec [[97, 10, 98], [10, 99]] (by decide)

/-! ### blame parse -/

theorem extractAuthors_length (lines : List (List Char)) : ∀ cur : List Char,
    (extractAuthors cur lines).length =
      ((lines.filter fun l => ['\t'].isPrefixOf l).length) := by
  induction lines with
  | nil => intro cur; rfl
  | cons line rest ih =>
    intro cur
    by_cases h1 : ("author ".toList).isPrefixOf line = true
    · have htab : ['\t'].isPrefixOf line = false := by
        cases line with
        | nil => simp at h1
        | cons b bs =>
          have hb : b = 'a' := by
            have : (('a' == b) && ("uthor ".toList).isPrefixOf bs) = true := h1
            have := (Bool.and_eq_true _ _).mp this
            exact (beq_iff_eq.mp this.1).symm
          subst hb
          rfl
      simp only [extractAuthors, h1, if_true, List.filter_cons, htab]
      exact ih _
    · by_cases h2 : ['\t'].isPrefixOf line = true
      · simp only [extractAuthors, h1, Bool.false_eq_true, if_false, h2, if_true,
          List.filter_cons, List.length_cons]
        rw [ih cur]
      · simp only [extractAuthors, h1, h2, Bool.false_eq_true, if_false,
          List.filter_cons]
        exact ih cur

theorem segsLines_rleFrom (l : List (List Char)) : ∀ (last : List Char) (count : Nat),
    segsLines (rleFrom last count l) = count + l.length := by
  induction l with
  | nil => intro last count; simp [rleFrom, segsLines]
  | cons a rest ih =>
    intro last count
    by_cases ha : a = last
    · simp only [rleFrom, ha, if_true, ih, List.length_cons]
      omega
    · simp only [rleFrom, ha, if_false, segsLines, List.map_cons, List.sum_cons,
        List.length_cons]
      have := ih a 1
      simp only [segsLines] at this
      omega

/-- Claim C1: whenever the blame parse yields segments, their line counts
sum to the number of tab-prefixed content lines of the blame output — one
per blamed physical line — so when git reports exactly as many lines as the
stream-based count stored in `lineCount` (hypothesis `h2`, git's contract),
the sum of the segments equals the recorded line count. -/
theorem blame_sum_matches_lineCount (stdout : List Char) (segs : List BlameSegment)
    (chunks : List (List Nat))
    (h1 : getBlameSegments stdout = some segs)
    (h2 : tabLineCount stdout = countLines chunks) :
    segsLines segs = tabLineCount stdout ∧ segsLines segs = countLines chunks := by
  have hsum : segsLines segs = tabLineCount stdout := by
    unfold getBlameSegments at h1
    cases hE : extractAuthors [] (jsSplitNl stdout) with
    | nil => rw [hE] at h1; exact absurd h1 (by simp)
    | cons a rest =>
      rw [hE] at h1
      have hsegs : segs = rleFrom a 1 rest := by
        have := h1
        simp only [Option.some.injEq] at this
        exact this.symm
      rw [hsegs, segsLines_rleFrom]
      have hlen := extractAuthors_length (jsSplitNl stdout) []
      rw [hE] at hlen
      simp only [List.length_cons] at hlen
      unfold tabLineCount
      omega
  exact ⟨hsum, hsum.trans h2⟩

theorem blame_sum_matches_lineCount_witness :
    segsLines [⟨['A'], 2⟩] = tabLineCount ("author A\n\tx\n\ty".toList) ∧
    segsLines [⟨['A'], 2⟩] = countLines [[120, 10, 121]] :=
  blame_sum_matches_lineCount ("author A\n\tx\n\ty".toList) [⟨['A'], 2⟩]
    [[120, 10, 121]] (by decide) (by decide)

/-! ### segment compression -/

theorem rleFrom_flatMap (l : List (List Char)) : ∀ (last : List Char) (count : Nat),
    ((rleFrom last count l).flatMap fun s => List.replicate s.lines s.author) =
      List.replicate count last ++ l := by
  induction l with
  | nil => intro last count; simp [rleFrom]
  | cons a rest ih =>
    intro last count
    by_cases ha : a = last
    · subst ha
      simp only [rleFrom, if_true, ih, List.replicate_succ']
      simp
    · simp only [rleFrom, ha, if_false, List.flatMap_cons, ih a 1, List.replicate_succ,
        List.replicate_zero]
      simp

theorem rleFrom_pos (l : List (List Char)) : ∀ (last : List Char) (count : Nat),
    1 ≤ count → ∀ s ∈ rleFrom last count l, 1 ≤ s.lines := by
  induction l with
  | nil =>
    intro last count hcount s hs
    simp only [rleFrom, List.mem_singleton] at hs
    subst hs; exact hcount
  | cons a rest ih =>
    intro last count hcount s hs
    by_cases ha : a = last
    · rw [rleFrom, if_pos ha] at hs
      exact ih last (count + 1) (by omega) s hs
    · rw [rleFrom, if_neg ha] at hs
      rcases List.mem_cons.mp hs with rfl | hs'
      · exact hcount
      · exact ih a 1 le_rfl s hs'

theorem rleFrom_head (l : List (List Char)) : ∀ (last : List Char) (count : Nat),
    ∃ n t, rleFrom last count l = ⟨last, n⟩ :: t := by
  induction l with
  | nil => intro last count; exact ⟨count, [], rfl⟩
  | cons a rest ih =>
    intro last count
    by_cases ha : a = last
    · rw [rleFrom, if_pos ha]
      exact ih last (count + 1)
    · rw [rleFrom, if_neg ha]
      exact ⟨count, rleFrom a 1 rest, rfl⟩

theorem rleFrom_chain (l : List (List Char)) : ∀ (last : List Char) (count : Nat),
    (rleFrom last count l).Chain' fun s t => s.author ≠ t.author := by
  induction l with
  | nil => intro last count; exact List.chain'_singleton _
  | cons a rest ih =>
    intro last count
    by_cases ha : a = last
    · rw [rleFrom, if_pos ha]; exact ih last (count + 1)
    · rw [rleFrom, if_neg ha]
      obtain ⟨n, t, ht⟩ := rleFrom_head rest a 1
      rw [ht]
      exact List.chain'_cons.mpr ⟨fun hco => ha hco.symm, ht ▸ ih a 1⟩

/-- Claim C3: the segment construction is run-length encoding of the
per-line author list: expanding the segments reproduces the author list in
order, every segment has at least one line, consecutive segments carry
distinct authors, `getBlameSegments` is exactly this encoding applied to
the parsed author list, and the author sequence A,A,B,B,B,A compresses to
(A,2), (B,3), (A,1). -/
theorem blame_segment_compression (a : List Char) (rest : List (List Char)) :
    ((rleFrom a 1 rest).flatMap fun s => List.replicate s.lines s.author) = a :: rest ∧
    (∀ s ∈ rleFrom a 1 rest, 1 ≤ s.lines) ∧
    ((rleFrom a 1 rest).Chain' fun s t => s.author ≠ t.author) ∧
    (∀ stdout, getBlameSegments stdout =
      match extractAuthors [] (jsSplitNl stdout) with
      | [] => none
      | a' :: rest' => some (rleFrom a' 1 rest')) ∧
    rleFrom ['A'] 1 [['A'], ['B'], ['B'], ['B'], ['A']] =
      [⟨['A'], 2⟩, ⟨['B'], 3⟩, ⟨['A'], 1⟩] := by
  refine ⟨?_, rleFrom_pos rest a 1 le_rfl, rleFrom_chain rest a 1, fun stdout => rfl,
    by decide⟩
  rw [rleFrom_flatMap rest a 1]
  rfl

/-! ### text/binary classification -/

/-- Claim C6, amended: a file whose open succeeds is binary exactly when a
NUL byte occurs in the first 8192 bytes; a file that cannot be opened is
also classified binary (not skipped); only a failed `stat` skips the file.
In particular an unopenable file still enters the tree, with
`isText = false`. -/
theorem isTextFile_spec :
    (∀ bytes : List Nat, isTextFile (some bytes) = false ↔ ∃ b ∈ bytes.take 8192, b = 0) ∧
    isTextFile none = false ∧
    (∀ name p ign o ch, buildFileNode name p false ign o ch = none) ∧
    (∀ name p ch, buildFileNode name p true false none ch =
      some (.mk name p .file (some false) none none [])) := by
  refine ⟨fun bytes => ?_, rfl, fun name p ign o ch => rfl, fun name p ch => rfl⟩
  unfold isTextFile
  rw [List.all_eq_false]
  constructor
  · rintro ⟨b, hb, hbne⟩
    exact ⟨b, hb, by simpa using hbne⟩
  · rintro ⟨b, hb, rfl⟩
    exact ⟨0, hb, by simp⟩

/-- Claim C6, counterexample: a file whose `stat` succeeds but whose open
fails (`openResult = none`) is not skipped — it appears in the tree as a
binary file, against the claim's "treated as absent and skipped". -/
theorem buildFileNode_cex :
    buildFileNode "f".toList "/repo/f".toList true false none [] =
      some (.mk "f".toList "/repo/f".toList .file (some false) none none []) ∧
    (FileNode.mk "f".toList "/repo/f".toList .file (some false) none none []).isText =
      some false :=
  ⟨rfl, rfl⟩

/-! ### cache manager -/

/-- Claim C8, amended: with unprovisioned storage the `CacheManager`
constructor throws (`Workspace storage is not available`) — and the
extension invokes it outside of its try/catch, so the analysis aborts —
while a constructed manager's `get` treats every read or parse failure as a
miss and its `put` swallows write errors. -/
theorem cacheManager_spec :
    cacheManagerConstruct none = .error "Workspace storage is not available".toList ∧
    (∀ u, cacheManagerConstruct (some u) = .ok ⟨u⟩) ∧
    (∀ parse, getBlameCache none parse = none) ∧
    (∀ c parse, parse c = none → getBlameCache (some c) parse = none) ∧
    (∀ b, saveBlameCache b = .ok ()) :=
  ⟨rfl, fun _ => rfl, fun _ => rfl, fun _ _ h => h, fun _ => rfl⟩

/-- Claim C8, counterexample: constructing the cache manager in the
unprovisioned state does raise an error. -/
theorem cacheManager_cex :
    cacheManagerConstruct none = Except.error "Workspace storage is not available".toList ∧
    (cacheManagerConstruct none).isOk = false :=
  ⟨rfl, rfl⟩

/-! ### author colors -/

/-- Claim C9, amended: an override entry with a non-empty (truthy) value is
returned verbatim; with no entry the color is the hash-derived
`hsl(abs(hash*31-rolling) % 360, 55%, 45%)` string, a pure function of the
author; the spec's concrete example holds. -/
theorem colorForAuthor_spec (m : List (List Char × List Char)) (a c : List Char)
    (h1 : m.lookup a = some c) (h2 : c ≠ []) :
    colorForAuthor m a = c ∧
    (∀ a', colorForAuthor [] a' = hslColor a') ∧
    colorForAuthor [("alice".toList, "#ff0000".toList)] "alice".toList =
      "#ff0000".toList := by
  refine ⟨?_, fun a' => rfl, by decide⟩
  unfold colorForAuthor
  rw [h1]
  simp [h2]

theorem colorForAuthor_spec_witness :
    colorForAuthor [("bob".toList, "#123456".toList)] "bob".toList = "#123456".toList ∧
    (∀ a', colorForAuthor [] a' = hslColor a') ∧
    colorForAuthor [("alice".toList, "#ff0000".toList)] "alice".toList =
      "#ff0000".toList :=
  colorForAuthor_spec [("bob".toList, "#123456".toList)] "bob".toList "#123456".toList
    (by decide) (by decide)

/-- Claim C9, counterexample: the override lookup is a JavaScript
truthiness test, so an entry mapping an author to the empty string is *not*
returned verbatim — the hash fallback runs instead. -/
theorem colorForAuthor_cex :
    ([("alice".toList, ([] : List Char))].lookup "alice".toList = some []) ∧
    colorForAuthor [("alice".toList, [])] "alice".toList = "hsl(0, 55%, 45%)".toList ∧
    ("hsl(0, 55%, 45%)".toList : List Char) ≠ ([] : List Char) := by
  refine ⟨by decide, by decide, by decide⟩

/-! ### attribution frame property -/

mutual

theorem frameRel_refl (blame : List Char → Option (List BlameSegment)) :
    ∀ t : FileNode, frameRel blame t t
  | .mk _ _ _ _ _ _ cs =>
    ⟨rfl, rfl, rfl, rfl, rfl, Or.inl rfl, fun _ => rfl, frameRelList_refl blame cs⟩

theorem frameRelList_refl (blame : List Char → Option (List BlameSegment)) :
    ∀ ts : List FileNode, frameRelList blame ts ts
  | [] => trivial
  | c :: cs => ⟨frameRel_refl blame c, frameRelList_refl blame cs⟩

end

mutual

theorem addBlameInfo_frame_aux (blame : List Char → Option (List BlameSegment)) :
    ∀ t : FileNode, frameRel blame t (addBlameInfo blame t)
  | .mk n p t it lc bs cs => by
    cases t with
    | file =>
      simp only [addBlameInfo]
      by_cases hit : it = some true
      · rw [if_pos hit]
        cases hb : blame p with
        | none =>
          exact ⟨rfl, rfl, rfl, rfl, rfl, Or.inl rfl, fun _ => rfl, frameRelList_refl blame cs⟩
        | some segs =>
          dsimp only
          by_cases hlen : segs.length > 0
          · rw [if_pos hlen]
            exact ⟨rfl, rfl, rfl, rfl, rfl,
              Or.inr ⟨rfl, hit, segs, hb, hlen, rfl⟩,
              fun hn => absurd ⟨rfl, hit⟩ hn, frameRelList_refl blame cs⟩
          · rw [if_neg hlen]
            exact ⟨rfl, rfl, rfl, rfl, rfl, Or.inl rfl, fun _ => rfl, frameRelList_refl blame cs⟩
      · rw [if_neg hit]
        exact ⟨rfl, rfl, rfl, rfl, rfl, Or.inl rfl, fun _ => rfl, frameRelList_refl blame cs⟩
    | folder =>
      exact ⟨rfl, rfl, rfl, rfl, rfl, Or.inl rfl, fun _ => rfl,
        addBlameInfo_frame_auxList blame cs⟩

theorem addBlameInfo_frame_auxList (blame : List Char → Option (List BlameSegment)) :
    ∀ ts : List FileNode, frameRelList blame ts (addBlameInfoList blame ts)
  | [] => trivial
  | c :: cs => ⟨addBlameInfo_frame_aux blame c, addBlameInfo_frame_auxList blame cs⟩

end

/-- Claim C10: the attribution pass only ever writes the `blameSegments`
field, only on file nodes with `isText = true` whose blame query returns a
non-empty list (and then writes exactly that list); every other field of
every node, the tree shape included, is unchanged, and a node that is not a
text file keeps its `blameSegments`. -/
theorem addBlameInfo_frame (blame : List Char → Option (List BlameSegment)) (t : FileNode) :
    frameRel blame t (addBlameInfo blame t) :=
  addBlameInfo_frame_aux blame t

/-! ### ignore resolution -/

theorem ignoreStep_eq (p : List (List Char)) (isDir : Bool) (b : Bool) (e : IgnoreEntry) :
    ignoreStep p isDir b e = (entryAssertion p isDir e).getD b := by
  unfold ignoreStep entryAssertion
  by_cases hdd : (['.', '.'].isPrefixOf (relativeString e.base p)) = true
  · simp [hdd]
  · simp only [Bool.not_eq_true] at hdd
    cases hu : (e.test (relFor e p isDir)).unignored <;>
      cases hi : (e.test (relFor e p isDir)).ignored <;>
        simp [hdd, hu, hi]

theorem getLast?_cons_getD (l : List Bool) (v b : Bool) :
    ((v :: l).getLast?).getD b = (l.getLast?).getD v := by
  cases l with
  | nil => rfl
  | cons x xs =>
    rw [List.getLast?_cons_cons]
    cases hw : (x :: xs).getLast? with
    | none => exact absurd (List.getLast?_eq_none_iff.mp hw) (by simp)
    | some w => rfl

theorem foldl_ignoreStep (p : List (List Char)) (isDir : Bool) :
    ∀ (stack : List IgnoreEntry) (b : Bool),
      stack.foldl (ignoreStep p isDir) b =
        ((stack.filterMap (entryAssertion p isDir)).getLast?).getD b := by
  intro stack
  induction stack with
  | nil => intro b; rfl
  | cons e t ih =>
    intro b
    rw [List.foldl_cons, ignoreStep_eq]
    cases ha : entryAssertion p isDir e with
    | none =>
      rw [List.filterMap_cons_none ha]
      exact ih b
    | some v =>
      rw [List.filterMap_cons_some ha, Option.getD_some, ih v, getLast?_cons_getD]

theorem commonPrefixLen_le (base : List (List Char)) :
    ∀ p, commonPrefixLen base p ≤ base.length := by
  induction base with
  | nil => intro p; cases p <;> simp [commonPrefixLen]
  | cons a as ih =>
    intro p
    cases p with
    | nil => simp [commonPrefixLen]
    | cons b bs =>
      by_cases hab : a = b
      · rw [commonPrefixLen, if_pos hab]
        simpa using ih bs
      · rw [commonPrefixLen, if_neg hab]
        simp

theorem contains_of_commonPrefixLen (base : List (List Char)) :
    ∀ p, commonPrefixLen base p = base.length → baseContains base p := by
  induction base with
  | nil => intro p _; rfl
  | cons a as ih =>
    intro p h
    cases p with
    | nil => simp [commonPrefixLen] at h
    | cons b bs =>
      by_cases hab : a = b
      · subst hab
        rw [commonPrefixLen, if_pos rfl, List.length_cons, Nat.add_right_cancel_iff] at h
        have hb := ih bs h
        unfold baseContains at hb ⊢
        rw [List.length_cons, List.take_succ_cons, hb]
      · rw [commonPrefixLen, if_neg hab] at h
        simp at h

theorem isPrefixOf_append_self (x : List Char) : ∀ r, x.isPrefixOf (x ++ r) = true := by
  induction x with
  | nil => intro r; simp [List.isPrefixOf]
  | cons a as ih => intro r; simp [List.isPrefixOf, ih]

theorem intercalate_cons (sep x : List Char) (t : List (List Char)) :
    ∃ r, List.intercalate sep (x :: t) = x ++ r := by
  cases t with
  | nil => exact ⟨[], by simp [List.intercalate]⟩
  | cons y ys =>
    exact ⟨sep ++ List.intercalate sep (y :: ys), by simp [List.intercalate, List.intersperse]⟩

theorem dotdot_of_not_contains (base p : List (List Char)) (h : ¬baseContains base p) :
    ['.', '.'].isPrefixOf (relativeString base p) = true := by
  have hlt : commonPrefixLen base p < base.length :=
    lt_of_le_of_ne (commonPrefixLen_le base p) fun he =>
      h (contains_of_commonPrefixLen base p he)
  unfold relativeString relativeParts
  dsimp only
  have hk : base.length - commonPrefixLen base p =
      (base.length - commonPrefixLen base p - 1) + 1 := by omega
  rw [hk, List.replicate_succ, List.cons_append]
  obtain ⟨r, hr⟩ := intercalate_cons ['/'] ['.', '.']
    (List.replicate (base.length - commonPrefixLen base p - 1) ['.', '.'] ++
      p.drop (commonPrefixLen base p))
  rw [hr]
  exact isPrefixOf_append_self ['.', '.'] r

/-- Claim C4, amended: the decision is last-assertion-wins over the stack
in outermost-to-innermost order with "not ignored" as the default —
`specDecision`, written from the spec's words, computes it — and an entry
whose base does not contain the path contributes nothing; but an entry is
consulted only when the relative path from its base does not itself begin
with `..`, which for a contained path fails exactly when the component
directly under the base starts with two dots.  Under that proviso a deeper
un-ignore entry at the end of the stack reverses any earlier ignore. -/
theorem shouldIgnorePath_spec (p : List (List Char)) (isDir : Bool) (stack : List IgnoreEntry) :
    shouldIgnorePath p isDir stack = specDecision p isDir stack ∧
    shouldIgnorePath p isDir [] = false ∧
    (∀ (e : IgnoreEntry) (s1 s2 : List IgnoreEntry), ¬baseContains e.base p →
      shouldIgnorePath p isDir (s1 ++ e :: s2) = shouldIgnorePath p isDir (s1 ++ s2)) ∧
    (∀ (s : List IgnoreEntry) (e : IgnoreEntry),
      ['.', '.'].isPrefixOf (relativeString e.base p) = false →
      (e.test (relFor e p isDir)).unignored = true →
      shouldIgnorePath p isDir (s ++ [e]) = false) := by
  refine ⟨foldl_ignoreStep p isDir stack false, rfl, ?_, ?_⟩
  · intro e s1 s2 hnc
    have hdd := dotdot_of_not_contains e.base p hnc
    have ha : entryAssertion p isDir e = none := by
      unfold entryAssertion
      rw [if_pos hdd]
    unfold shouldIgnorePath
    rw [foldl_ignoreStep p isDir (s1 ++ e :: s2) false,
      foldl_ignoreStep p isDir (s1 ++ s2) false,
      List.filterMap_append, List.filterMap_append, List.filterMap_cons_none ha]
  · intro s e hdd hu
    have ha : entryAssertion p isDir e = some false := by
      unfold entryAssertion
      rw [if_neg (by simp [hdd])]
      dsimp only
      rw [hu]
      simp
    have hfm : List.filterMap (entryAssertion p isDir) [e] = [false] := by
      rw [List.filterMap_cons_some ha]
      rfl
    unfold shouldIgnorePath
    rw [foldl_ignoreStep p isDir (s ++ [e]) false, List.filterMap_append, hfm,
      List.getLast?_concat]
    rfl

/-- Claim C4, counterexample: under root `r`, a subdirectory `sub` carries
an un-ignore-everything rule file while the root entry ignores everything.
For the file `r/sub/..x` — inside `sub`'s subtree — `path.relative` from
`r/sub` is `..x`, which starts with `..`, so the deeper entry is skipped
and its un-ignore does not reverse the ancestor-level ignore: the path
stays ignored, refuting "a deeper un-ignore pattern reverses an
ancestor-level ignore for paths under it". -/
theorem shouldIgnorePath_cex :
    shouldIgnorePath [['r'], ['s', 'u', 'b'], ['.', '.', 'x']] false
        [⟨[['r']], fun _ => ⟨true, false⟩⟩,
          ⟨[['r'], ['s', 'u', 'b']], fun _ => ⟨false, true⟩⟩] = true ∧
    baseContains [['r'], ['s', 'u', 'b']] [['r'], ['s', 'u', 'b'], ['.', '.', 'x']] ∧
    (IgnoreEntry.test ⟨[['r'], ['s', 'u', 'b']], fun _ => ⟨false, true⟩⟩
        (relFor ⟨[['r'], ['s', 'u', 'b']], fun _ => ⟨false, true⟩⟩
          [['r'], ['s', 'u', 'b'], ['.', '.', 'x']] false)).unignored = true :=
  ⟨by decide, by decide, rfl⟩

/-! ### rectangle packing -/

section PackingProofs

variable {α : Type} [LinearOrderedCommRing α]

theorem gap_pos : (0 : α) < gap := by norm_num [gap]

theorem overlaps_symm {a b : Rect α} (h : overlaps a b) : overlaps b a :=
  ⟨h.2.1, h.1, h.2.2.2, h.2.2.1⟩

theorem not_overlaps_symm {a b : Rect α} (h : ¬overlaps a b) : ¬overlaps b a :=
  fun hc => h (overlaps_symm hc)

theorem overlaps_of_containedIn {a c b : Rect α} (hac : containedIn a c) (h : overlaps a b) :
    overlaps c b := by
  obtain ⟨h1, h2, h3, h4⟩ := hac
  obtain ⟨o1, o2, o3, o4⟩ := h
  exact ⟨by linarith, by linarith, by linarith, by linarith⟩

theorem not_overlaps_of_containedIn {a c b : Rect α} (hac : containedIn a c)
    (h : ¬overlaps c b) : ¬overlaps a b :=
  fun hc => h (overlaps_of_containedIn hac hc)

theorem overlaps_of_containedIn_of_pos {a b : Rect α} (h : containedIn a b)
    (hw : 0 < a.width) (hh : 0 < a.height) : overlaps a b := by
  obtain ⟨h1, h2, h3, h4⟩ := h
  exact ⟨by linarith, by linarith, by linarith, by linarith⟩

theorem splitRight_containedIn {t r : Rect α} (hw : 0 ≤ r.width) (hh : r.height ≤ t.height) :
    containedIn (splitRight t r) t := by
  unfold splitRight containedIn
  dsimp only
  have hg := gap_pos (α := α)
  refine ⟨by linarith, le_refl _, le_of_eq (by ring), by linarith⟩

theorem splitBottom_containedIn {t r : Rect α} (hh : 0 ≤ r.height) :
    containedIn (splitBottom t r) t := by
  unfold splitBottom containedIn
  dsimp only
  have hg := gap_pos (α := α)
  exact ⟨le_refl _, by linarith, le_of_eq (by ring), le_of_eq (by ring)⟩

theorem placedRect_containedIn {t r : Rect α} (hf : fits r t) :
    containedIn (⟨t.x, t.y, r.width, r.height⟩ : Rect α) t := by
  obtain ⟨h1, h2⟩ := hf
  exact ⟨le_refl _, le_refl _, by dsimp only; linarith, by dsimp only; linarith⟩

theorem placed_right_disj {t r : Rect α} :
    ¬overlaps (⟨t.x, t.y, r.width, r.height⟩ : Rect α) (splitRight t r) := by
  unfold overlaps splitRight
  dsimp only
  rintro ⟨-, h2, -, -⟩
  have hg := gap_pos (α := α)
  linarith

theorem placed_bottom_disj {t r : Rect α} :
    ¬overlaps (⟨t.x, t.y, r.width, r.height⟩ : Rect α) (splitBottom t r) := by
  unfold overlaps splitBottom
  dsimp only
  rintro ⟨-, -, -, h4⟩
  have hg := gap_pos (α := α)
  linarith

theorem right_bottom_disj {t r : Rect α} : ¬overlaps (splitRight t r) (splitBottom t r) := by
  unfold overlaps splitRight splitBottom
  dsimp only
  rintro ⟨-, -, -, h4⟩
  have hg := gap_pos (α := α)
  linarith

theorem pushPositive_mem {l : List (Rect α)} {f x : Rect α} (h : x ∈ pushPositive l f) :
    x ∈ l ∨ (x = f ∧ 0 < f.width ∧ 0 < f.height) := by
  unfold pushPositive at h
  split at h
  · rcases List.mem_append.mp h with h' | h'
    · exact Or.inl h'
    · next hpos => exact Or.inr ⟨List.mem_singleton.mp h', hpos⟩
  · exact Or.inl h

theorem mem_pushPositive_of_mem {l : List (Rect α)} {f x : Rect α} (h : x ∈ l) :
    x ∈ pushPositive l f := by
  unfold pushPositive
  split
  · exact List.mem_append_left _ h
  · exact h

theorem pushPositive_pairwise {R : Rect α → Rect α → Prop} {l : List (Rect α)} {f : Rect α}
    (hl : l.Pairwise R) (hf : ∀ a ∈ l, R a f) : (pushPositive l f).Pairwise R := by
  unfold pushPositive
  split
  · refine List.pairwise_append.mpr ⟨hl, List.pairwise_singleton _ _, ?_⟩
    intro a ha b hb
    rw [List.mem_singleton.mp hb]
    exact hf a ha
  · exact hl

theorem get?_of_mem_eraseIdx {β : Type} :
    ∀ (l : List β) (i : Nat) (a : β), a ∈ l.eraseIdx i → ∃ j, j ≠ i ∧ l.get? j = some a
  | [], _, a => by simp [List.eraseIdx]
  | x :: xs, 0, a => by
    intro h
    rw [List.eraseIdx] at h
    obtain ⟨n, hn⟩ := List.mem_iff_get?.mp h
    exact ⟨n + 1, by omega, hn⟩
  | x :: xs, i + 1, a => by
    intro h
    rw [List.eraseIdx] at h
    rcases List.mem_cons.mp h with rfl | h'
    · exact ⟨0, by omega, rfl⟩
    · obtain ⟨j, hj, hget⟩ := get?_of_mem_eraseIdx xs i a h'
      exact ⟨j + 1, by omega, hget⟩

theorem mem_eraseIdx_of_get? {β : Type} :
    ∀ (l : List β) (i j : Nat) (a : β), l.get? j = some a → j ≠ i → a ∈ l.eraseIdx i
  | [], _, j, a => by simp
  | x :: xs, 0, j, a => by
    intro hget hne
    rw [List.eraseIdx]
    cases j with
    | zero => exact absurd rfl hne
    | succ j' => exact List.get?_mem hget
  | x :: xs, i + 1, j, a => by
    intro hget hne
    rw [List.eraseIdx]
    cases j with
    | zero =>
      rw [List.get?] at hget
      exact List.mem_cons.mpr (Or.inl (Option.some.injEq _ _ ▸ hget.symm ▸ rfl))
    | succ j' =>
      rw [List.get?] at hget
      exact List.mem_cons.mpr (Or.inr (mem_eraseIdx_of_get? xs i j' a hget (by omega)))

theorem pairwise_ne_get? {β : Type} {R : β → β → Prop} (hsym : ∀ a b, R a b → R b a)
    {l : List β} (hp : l.Pairwise R) {i j : Nat} {a b : β}
    (hi : l.get? i = some a) (hj : l.get? j = some b) (hij : i ≠ j) : R a b := by
  have hpg := List.pairwise_iff_get.mp hp
  obtain ⟨hi', hia⟩ := List.get?_eq_some.mp hi
  obtain ⟨hj', hjb⟩ := List.get?_eq_some.mp hj
  rcases lt_or_gt_of_ne hij with hlt | hgt
  · exact hia ▸ hjb ▸ hpg ⟨i, hi'⟩ ⟨j, hj'⟩ hlt
  · exact hsym _ _ (hjb ▸ hia ▸ hpg ⟨j, hj'⟩ ⟨i, hi'⟩ hgt)

theorem pruneStep_sublist (l : List (Rect α)) (i : Nat) : (pruneStep l i).Sublist l := by
  unfold pruneStep
  cases l.get? i with
  | none => exact List.Sublist.refl l
  | some a =>
    dsimp only
    split
    · exact List.eraseIdx_sublist l i
    · exact List.Sublist.refl l

theorem pruneGo_sublist : ∀ (n : Nat) (l : List (Rect α)), (pruneGo l n).Sublist l
  | 0, l => List.Sublist.refl l
  | n + 1, l => (pruneGo_sublist n (pruneStep l n)).trans (pruneStep_sublist l n)

theorem pruneFreeRects_sublist (l : List (Rect α)) : (pruneFreeRects l).Sublist l :=
  pruneGo_sublist l.length l

theorem pruneStep_eq_self {l : List (Rect α)}
    (h : ∀ i j a b, i ≠ j → l.get? i = some a → l.get? j = some b → ¬containedIn a b)
    (i : Nat) : pruneStep l i = l := by
  unfold pruneStep
  cases hg : l.get? i with
  | none => rfl
  | some a =>
    dsimp only
    rw [if_neg]
    intro hany
    rw [List.any_eq_true] at hany
    obtain ⟨j, _, hj⟩ := hany
    rw [Bool.and_eq_true] at hj
    have hjne : j ≠ i := by simpa using hj.1
    have hj2 := hj.2
    cases hg2 : l.get? j with
    | none => rw [hg2] at hj2; simp at hj2
    | some b =>
      rw [hg2] at hj2
      exact h i j a b (Ne.symm hjne) hg hg2 (of_decide_eq_true hj2)

theorem pruneGo_eq_self {l : List (Rect α)} (h : ∀ i, pruneStep l i = l) :
    ∀ n, pruneGo l n = l
  | 0 => rfl
  | n + 1 => by rw [pruneGo, h n, pruneGo_eq_self h n]

theorem pruneFreeRects_eq_self {l : List (Rect α)}
    (hpos : ∀ f ∈ l, 0 < f.width ∧ 0 < f.height)
    (hdisj : l.Pairwise fun a b => ¬overlaps a b) : pruneFreeRects l = l := by
  apply pruneGo_eq_self
  intro i
  apply pruneStep_eq_self
  intro i' j a b hne hga hgb hcont
  have hab : ¬overlaps a b :=
    pairwise_ne_get? (fun _ _ => not_overlaps_symm) hdisj hga hgb hne
  have hamem : a ∈ l := List.get?_mem hga
  exact hab (overlaps_of_containedIn_of_pos hcont (hpos a hamem).1 (hpos a hamem).2)

theorem findBestAux_none {r : Rect α} :
    ∀ (l : List (Rect α)) (i : Nat) (best : Option (Nat × Rect α × α)),
      findBestAux r l i best = none → best = none ∧ ∀ f ∈ l, ¬fits r f
  | [], _, best => fun h => ⟨h, by simp⟩
  | f :: rest, i, best => fun h => by
    have h2 : findBestAux r rest (i + 1) (bestCandidate r f i best) = none := h
    obtain ⟨hb', hrest⟩ := findBestAux_none rest (i + 1) _ h2
    unfold bestCandidate at hb'
    by_cases hf : fits r f
    · rw [if_pos hf] at hb'
      cases best with
      | none => simp at hb'
      | some b =>
        obtain ⟨bi, bf, bs⟩ := b
        dsimp only at hb'
        split at hb' <;> simp at hb'
    · rw [if_neg hf] at hb'
      refine ⟨hb', fun g hg => ?_⟩
      rcases List.mem_cons.mp hg with rfl | hg'
      · exact hf
      · exact hrest g hg'

theorem findBestAux_valid {r : Rect α} (L : List (Rect α)) :
    ∀ (l : List (Rect α)) (k : Nat) (best : Option (Nat × Rect α × α)),
      l = L.drop k →
      (∀ i f s, best = some (i, f, s) → L.get? i = some f ∧ fits r f) →
      ∀ i f s, findBestAux r l k best = some (i, f, s) → L.get? i = some f ∧ fits r f
  | [], _, _ => fun _ hb i f s h => hb i f s h
  | g :: rest, k, best => fun hl hb i f s h => by
    have h2 : findBestAux r rest (k + 1) (bestCandidate r g k best) = some (i, f, s) := h
    have hgk : L.get? k = some g := by
      have h0 : (L.drop k).get? 0 = some g := by rw [← hl]; rfl
      rw [List.get?_drop] at h0
      simpa using h0
    have hrest : rest = L.drop (k + 1) := by
      have h1 : (L.drop k).drop 1 = L.drop (k + 1) := by
        rw [List.drop_drop]
      rw [← hl] at h1
      simpa using h1
    refine findBestAux_valid L rest (k + 1) _ hrest ?_ i f s h2
    intro i' f' s' hb'
    unfold bestCandidate at hb'
    by_cases hf : fits r g
    · rw [if_pos hf] at hb'
      cases best with
      | none =>
        dsimp only at hb'
        simp only [Option.some.injEq, Prod.mk.injEq] at hb'
        obtain ⟨rfl, rfl, -⟩ := hb'
        exact ⟨hgk, hf⟩
      | some b =>
        obtain ⟨bi, bf, bs⟩ := b
        dsimp only at hb'
        split at hb'
        · simp only [Option.some.injEq, Prod.mk.injEq] at hb'
          obtain ⟨rfl, rfl, -⟩ := hb'
          exact ⟨hgk, hf⟩
        · exact hb i' f' s' hb'
    · rw [if_neg hf] at hb'
      exact hb i' f' s' hb'

theorem findBest_some {l : List (Rect α)} {r : Rect α} {i : Nat} {f : Rect α} {s : α}
    (h : findBest l r = some (i, f, s)) : l.get? i = some f ∧ fits r f :=
  findBestAux_valid l l 0 none (by simp) (by simp) i f s h

theorem findBest_none {l : List (Rect α)} {r : Rect α} (h : findBest l r = none) :
    ∀ f ∈ l, ¬fits r f :=
  (findBestAux_none l 0 none h).2

theorem needOf_cons (r : Rect α) (rs : List (Rect α)) :
    needOf (r :: rs) = r.height + gap + needOf rs := by
  simp [needOf]

theorem needOf_nonneg {rs : List (Rect α)} (h : ∀ r ∈ rs, 0 < r.height) : 0 ≤ needOf rs := by
  apply List.sum_nonneg
  intro a ha
  obtain ⟨r, hr, rfl⟩ := List.mem_map.mp ha
  have := h r hr
  have hg := gap_pos (α := α)
  linarith

theorem needOf_eq_total (rs : List (Rect α)) :
    needOf rs = (rs.map fun r => r.height).sum + (rs.length : α) * gap := by
  induction rs with
  | nil => simp [needOf]
  | cons r t ih =>
    rw [needOf_cons, ih]
    simp only [List.map_cons, List.sum_cons, List.length_cons]
    push_cast
    ring

theorem placeOne_some_eq {W H : α} {st : PackState α} {r : Rect α} {i : Nat}
    {target : Rect α} {sc : α} (h : findBest st.freeRects r = some (i, target, sc)) :
    placeOne W H st r =
      ⟨pruneFreeRects
          (pushPositive (pushPositive (st.freeRects.eraseIdx i) (splitRight target r))
            (splitBottom target r)),
        st.placed ++ [⟨target.x, target.y, r.width, r.height⟩]⟩ := by
  unfold placeOne
  rw [h]

/-- One placement preserves the packing invariant: the chosen region (the
full-width band always fits, so the extension branch is unreachable) is
split into disjoint remainders contained in it, and either the band itself
was chosen — then its bottom remainder is the new band — or the band
survives the erase and the (identity, under the invariant) prune. -/
theorem placeOne_inv {W H : α} {st : PackState α} {r : Rect α} {need' : α}
    (hW : 0 < W) (hrw : 0 < r.width) (hrh : 0 < r.height) (hfit : r.width ≤ W)
    (hneed' : 0 ≤ need')
    (hinv : PackInv W H st (r.height + gap + need')) :
    PackInv W H (placeOne W H st r) need' := by
  have hg := gap_pos (α := α)
  have hneed0 : 0 < r.height + gap + need' := by linarith
  obtain ⟨Y, hY0, hYmem, hYband⟩ := hinv.band hneed0
  have hbandfits : fits r ⟨0, Y, W, H - Y⟩ := by
    refine ⟨hfit, ?_⟩
    show r.height ≤ H - Y
    linarith
  cases hfb : findBest st.freeRects r with
  | none => exact absurd hbandfits (findBest_none hfb _ hYmem)
  | some tr =>
    obtain ⟨i, target, sc⟩ := tr
    obtain ⟨hti, htfits⟩ := findBest_some hfb
    have htmem : target ∈ st.freeRects := List.get?_mem hti
    obtain ⟨htw, hth, htx, hty⟩ := hinv.free_pos target htmem
    set E := st.freeRects.eraseIdx i with hE
    set pr := splitRight target r with hpr
    set pb := splitBottom target r with hpb
    set placedR : Rect α := ⟨target.x, target.y, r.width, r.height⟩ with hplR
    set L2 := pushPositive (pushPositive E pr) pb with hL2
    have hEsub : E ⊆ st.freeRects := (List.eraseIdx_sublist _ _).subset
    have hEdisj : ∀ g ∈ E, ¬overlaps target g := by
      intro g hg
      obtain ⟨j, hjne, hgj⟩ := get?_of_mem_eraseIdx _ _ _ hg
      exact pairwise_ne_get? (fun _ _ => not_overlaps_symm) hinv.free_disj hti hgj
        (Ne.symm hjne)
    have hprC : containedIn pr target := splitRight_containedIn (le_of_lt hrw) htfits.2
    have hpbC : containedIn pb target := splitBottom_containedIn (le_of_lt hrh)
    have hplC : containedIn placedR target := placedRect_containedIn htfits
    have hL2mem : ∀ f ∈ L2, f ∈ E ∨ (f = pr ∧ 0 < pr.width ∧ 0 < pr.height) ∨
        (f = pb ∧ 0 < pb.width ∧ 0 < pb.height) := by
      intro f hf
      rcases pushPositive_mem hf with hf' | hfb'
      · rcases pushPositive_mem hf' with hf'' | hfp'
        · exact Or.inl hf''
        · exact Or.inr (Or.inl hfp')
      · exact Or.inr (Or.inr hfb')
    have hfree_pos : ∀ f ∈ L2, 0 < f.width ∧ 0 < f.height ∧ 0 ≤ f.x ∧ 0 ≤ f.y := by
      intro f hf
      rcases hL2mem f hf with hf' | ⟨rfl, hw, hh⟩ | ⟨rfl, hw, hh⟩
      · exact hinv.free_pos f (hEsub hf')
      · refine ⟨hw, hh, ?_, ?_⟩
        · show 0 ≤ target.x + r.width + gap
          linarith
        · show 0 ≤ target.y
          linarith
      · refine ⟨hw, hh, ?_, ?_⟩
        · show 0 ≤ target.x
          linarith
        · show 0 ≤ target.y + r.height + gap
          linarith
    have hEpair : E.Pairwise fun a b => ¬overlaps a b :=
      hinv.free_disj.sublist (List.eraseIdx_sublist _ _)
    have hstep1 : (pushPositive E pr).Pairwise fun a b => ¬overlaps a b := by
      refine pushPositive_pairwise hEpair fun g hg hc => ?_
      exact hEdisj g hg (overlaps_of_containedIn hprC (overlaps_symm hc))
    have hfree_disj : L2.Pairwise fun a b => ¬overlaps a b := by
      refine pushPositive_pairwise hstep1 fun g hg hc => ?_
      rcases pushPositive_mem hg with hg' | ⟨rfl, -, -⟩
      · exact hEdisj g hg' (overlaps_of_containedIn hpbC (overlaps_symm hc))
      · exact right_bottom_disj hc
    have hprune : pruneFreeRects L2 = L2 :=
      pruneFreeRects_eq_self (fun f hf => ⟨(hfree_pos f hf).1, (hfree_pos f hf).2.1⟩)
        hfree_disj
    have hfree_placed : ∀ f ∈ L2, ∀ p ∈ st.placed ++ [placedR], ¬overlaps f p := by
      intro f hf p hp
      have hfp : f ∈ E ∨ f = pr ∨ f = pb := by
        rcases hL2mem f hf with h' | ⟨rfl, -, -⟩ | ⟨rfl, -, -⟩
        · exact Or.inl h'
        · exact Or.inr (Or.inl rfl)
        · exact Or.inr (Or.inr rfl)
      rcases List.mem_append.mp hp with hpold | hpnew
      · rcases hfp with h' | rfl | rfl
        · exact hinv.free_placed f (hEsub h') p hpold
        · exact not_overlaps_of_containedIn hprC (hinv.free_placed target htmem p hpold)
        · exact not_overlaps_of_containedIn hpbC (hinv.free_placed target htmem p hpold)
      · rw [List.mem_singleton.mp hpnew]
        rcases hfp with h' | rfl | rfl
        · intro hc
          exact hEdisj f h' (overlaps_of_containedIn hplC (overlaps_symm hc))
        · exact not_overlaps_symm placed_right_disj
        · exact not_overlaps_symm placed_bottom_disj
    have hplaced_disj : (st.placed ++ [placedR]).Pairwise fun a b => ¬overlaps a b := by
      refine List.pairwise_append.mpr ⟨hinv.placed_disj, List.pairwise_singleton _ _, ?_⟩
      intro p hp b hb hc
      rw [List.mem_singleton.mp hb] at hc
      exact hinv.free_placed target htmem p hp (overlaps_of_containedIn hplC (overlaps_symm hc))
    have hplaced_pos : ∀ p ∈ st.placed ++ [placedR], 0 ≤ p.x ∧ 0 ≤ p.y := by
      intro p hp
      rcases List.mem_append.mp hp with hpold | hpnew
      · exact hinv.placed_pos p hpold
      · rw [List.mem_singleton.mp hpnew]
        exact ⟨htx, hty⟩
    have hband : 0 < need' → ∃ Y', 0 ≤ Y' ∧
        (⟨0, Y', W, H - Y'⟩ : Rect α) ∈ pruneFreeRects L2 ∧ need' ≤ H - Y' := by
      intro hneedpos
      rw [hprune]
      by_cases htb : target = (⟨0, Y, W, H - Y⟩ : Rect α)
      · refine ⟨Y + r.height + gap, by linarith, ?_, by linarith⟩
        have hpb_eq : pb = ⟨0, Y + r.height + gap, W, H - (Y + r.height + gap)⟩ := by
          rw [hpb, htb]
          unfold splitBottom
          dsimp only
          refine congrArg (fun h => Rect.mk 0 (Y + r.height + gap) W h) ?_
          ring
        have hguard : 0 < pb.width ∧ 0 < pb.height := by
          rw [hpb_eq]
          exact ⟨hW, by dsimp only; linarith⟩
        rw [← hpb_eq]
        show pb ∈ pushPositive (pushPositive E pr) pb
        unfold pushPositive
        rw [if_pos hguard]
        exact List.mem_append_right _ (List.mem_singleton.mpr rfl)
      · refine ⟨Y, hY0, ?_, by linarith⟩
        have hbE : (⟨0, Y, W, H - Y⟩ : Rect α) ∈ E := by
          obtain ⟨j, hgj⟩ := List.mem_iff_get?.mp hYmem
          refine mem_eraseIdx_of_get? _ i j _ hgj ?_
          intro hji
          subst hji
          rw [hti] at hgj
          injection hgj with he
          exact htb he
        exact mem_pushPositive_of_mem (mem_pushPositive_of_mem hbE)
    rw [placeOne_some_eq hfb]
    exact ⟨by rw [hprune]; exact hfree_pos, by rw [hprune]; exact hfree_disj,
      by rw [hprune]; exact hfree_placed, hplaced_disj, hplaced_pos, hband⟩

theorem placeOne_none_eq {W H : α} {st : PackState α} {r : Rect α}
    (h : findBest st.freeRects r = none) :
    placeOne W H st r =
      ⟨pruneFreeRects
          (pushPositive
            (pushPositive st.freeRects (splitRight ⟨0, H, W, r.height + gap⟩ r))
            (splitBottom ⟨0, H, W, r.height + gap⟩ r)),
        st.placed ++ [⟨0, H, r.width, r.height⟩]⟩ := by
  unfold placeOne
  rw [h]

theorem placeOne_coords {W H : α} {st : PackState α} {r : Rect α}
    (hrw : 0 < r.width) (hrh : 0 < r.height) (hH : 0 ≤ H)
    (hfree : ∀ f ∈ st.freeRects, 0 ≤ f.x ∧ 0 ≤ f.y)
    (hplaced : ∀ p ∈ st.placed, 0 ≤ p.x ∧ 0 ≤ p.y) :
    (∀ f ∈ (placeOne W H st r).freeRects, 0 ≤ f.x ∧ 0 ≤ f.y) ∧
    (∀ p ∈ (placeOne W H st r).placed, 0 ≤ p.x ∧ 0 ≤ p.y) := by
  have hg := gap_pos (α := α)
  cases hfb : findBest st.freeRects r with
  | some tr =>
    obtain ⟨i, target, sc⟩ := tr
    obtain ⟨hti, -⟩ := findBest_some hfb
    obtain ⟨htx, hty⟩ := hfree target (List.get?_mem hti)
    rw [placeOne_some_eq hfb]
    constructor
    · intro f hf
      have hf2 := (pruneFreeRects_sublist _).subset hf
      rcases pushPositive_mem hf2 with hf3 | ⟨rfl, -, -⟩
      · rcases pushPositive_mem hf3 with hf4 | ⟨rfl, -, -⟩
        · exact hfree f ((List.eraseIdx_sublist _ _).subset hf4)
        · exact ⟨by show 0 ≤ target.x + r.width + gap; linarith, hty⟩
      · exact ⟨htx, by show 0 ≤ target.y + r.height + gap; linarith⟩
    · intro p hp
      rcases List.mem_append.mp hp with hpold | hpnew
      · exact hplaced p hpold
      · rw [List.mem_singleton.mp hpnew]
        exact ⟨htx, hty⟩
  | none =>
    rw [placeOne_none_eq hfb]
    constructor
    · intro f hf
      have hf2 := (pruneFreeRects_sublist _).subset hf
      rcases pushPositive_mem hf2 with hf3 | ⟨rfl, -, -⟩
      · rcases pushPositive_mem hf3 with hf4 | ⟨rfl, -, -⟩
        · exact hfree f hf4
        · exact ⟨by show (0 : α) ≤ 0 + r.width + gap; linarith,
            by show (0 : α) ≤ H; linarith⟩
      · exact ⟨by show (0 : α) ≤ 0; linarith,
          by show (0 : α) ≤ H + r.height + gap; linarith⟩
    · intro p hp
      rcases List.mem_append.mp hp with hpold | hpnew
      · exact hplaced p hpold
      · rw [List.mem_singleton.mp hpnew]
        exact ⟨le_refl 0, hH⟩

theorem foldl_placeOne_inv {W H : α} (hW : 0 < W) :
    ∀ (rs : List (Rect α)) (st : PackState α),
      (∀ r ∈ rs, 0 < r.width ∧ 0 < r.height ∧ r.width ≤ W) →
      PackInv W H st (needOf rs) →
      PackInv W H (rs.foldl (placeOne W H) st) 0
  | [], _ => fun _ h => h
  | r :: rs, st => fun hall hinv => by
    rw [List.foldl_cons]
    have hr := hall r (List.mem_cons_self r rs)
    refine foldl_placeOne_inv hW rs _ (fun x hx => hall x (List.mem_cons_of_mem _ hx)) ?_
    rw [needOf_cons] at hinv
    exact placeOne_inv hW hr.1 hr.2.1 hr.2.2
      (needOf_nonneg fun x hx => (hall x (List.mem_cons_of_mem _ hx)).2.1) hinv

theorem foldl_placeOne_coords {W H : α} (hH : 0 ≤ H) :
    ∀ (rs : List (Rect α)) (st : PackState α),
      (∀ r ∈ rs, 0 < r.width ∧ 0 < r.height) →
      (∀ f ∈ st.freeRects, 0 ≤ f.x ∧ 0 ≤ f.y) →
      (∀ p ∈ st.placed, 0 ≤ p.x ∧ 0 ≤ p.y) →
      ∀ p ∈ (rs.foldl (placeOne W H) st).placed, 0 ≤ p.x ∧ 0 ≤ p.y
  | [], _ => fun _ _ hp => hp
  | r :: rs, st => fun hall hfree hplaced => by
    rw [List.foldl_cons]
    have hr := hall r (List.mem_cons_self r rs)
    obtain ⟨hfree', hplaced'⟩ := placeOne_coords hr.1 hr.2 hH hfree hplaced
    exact foldl_placeOne_coords hH rs _ (fun x hx => hall x (List.mem_cons_of_mem _ hx))
      hfree' hplaced'

theorem foldl_placeOne_sizes {W H : α} :
    ∀ (rs : List (Rect α)) (st : PackState α),
      ((rs.foldl (placeOne W H) st).placed.map fun p => (p.width, p.height)) =
        (st.placed.map fun p => (p.width, p.height)) ++ (rs.map fun r => (r.width, r.height))
  | [], st => by simp
  | r :: rs, st => by
    rw [List.foldl_cons, foldl_placeOne_sizes rs _]
    have hp : ((placeOne W H st r).placed.map fun p => (p.width, p.height)) =
        (st.placed.map fun p => (p.width, p.height)) ++ [(r.width, r.height)] := by
      cases hfb : findBest st.freeRects r with
      | some tr =>
        obtain ⟨i, target, sc⟩ := tr
        rw [placeOne_some_eq hfb]
        simp
      | none =>
        rw [placeOne_none_eq hfb]
        simp
    rw [hp]
    simp

theorem init_le_foldl_max : ∀ (l : List α) (init : α), init ≤ l.foldl max init
  | [], _ => le_refl _
  | x :: xs, init => le_trans (le_max_left _ _) (init_le_foldl_max xs (max init x))

theorem le_foldl_max : ∀ (l : List α) (a init : α), a ∈ l → a ≤ l.foldl max init
  | [], a, init => by simp
  | x :: xs, a, init => fun h => by
    rw [List.foldl_cons]
    rcases List.mem_cons.mp h with rfl | h'
    · exact le_trans (le_max_right init a) (init_le_foldl_max xs _)
    · exact le_foldl_max xs a _ h'

/-- Claim C7: packing is total and has no error branch: every input
rectangle receives exactly one placement — the placed children carry
exactly the input rectangles' sizes (as a permutation; when no free region
fits, the downward extension still places the rectangle). -/
theorem packMaxRects_total (rects : List (Rect α)) (W : α) :
    (((packMaxRects rects W).children.map fun p => (p.width, p.height)).Perm
      (rects.map fun r => (r.width, r.height))) ∧
    (packMaxRects rects W).children.length = rects.length := by
  have hperm : (sortDesc rects).Perm rects := List.mergeSort_perm rects _
  have hch : ((packMaxRects rects W).children.map fun p => (p.width, p.height)) =
      (sortDesc rects).map fun r => (r.width, r.height) := by
    have h := foldl_placeOne_sizes (W := W)
      (H := (rects.map fun r => r.height).sum + (rects.length : α) * gap)
      (sortDesc rects)
      ⟨[⟨0, 0, W, (rects.map fun r => r.height).sum + (rects.length : α) * gap⟩], []⟩
    simpa using h
  constructor
  · rw [hch]
    exact hperm.map _
  · have hlen := congrArg List.length hch
    simp only [List.length_map] at hlen
    rw [hlen, hperm.length_eq]

/-- Claim C2, amended: for positively-sized rectangles and a positive
target width, the packed bounding box dominates every child's dimensions;
and no two placed rectangles overlap provided every rectangle's width fits
the target width — without that proviso overlap is possible (see the
counterexample), because the downward extension is always created at
`y = totalHeight` and does not shrink for over-wide rectangles. -/
theorem packMaxRects_layout (rects : List (Rect α)) (W : α)
    (hpos : ∀ r ∈ rects, 0 < r.width ∧ 0 < r.height) (hW : 0 < W) :
    (∀ p ∈ (packMaxRects rects W).children,
      p.width ≤ (packMaxRects rects W).width ∧
      p.height ≤ (packMaxRects rects W).height) ∧
    ((∀ r ∈ rects, r.width ≤ W) →
      (packMaxRects rects W).children.Pairwise fun a b => ¬overlaps a b) := by
  have hg := gap_pos (α := α)
  set Htot : α := (rects.map fun r => r.height).sum + (rects.length : α) * gap with hHt
  set st0 : PackState α := ⟨[⟨0, 0, W, Htot⟩], []⟩ with hst0
  have hperm : (sortDesc rects).Perm rects := List.mergeSort_perm rects _
  have hH0 : 0 ≤ Htot := by
    rw [hHt]
    apply add_nonneg
    · apply List.sum_nonneg
      intro a ha
      obtain ⟨r, hr, rfl⟩ := List.mem_map.mp ha
      exact le_of_lt (hpos r hr).2
    · exact mul_nonneg (Nat.cast_nonneg _) (le_of_lt hg)
  have hch : (packMaxRects rects W).children =
      ((sortDesc rects).foldl (placeOne W Htot) st0).placed := rfl
  constructor
  · have hcoords : ∀ p ∈ ((sortDesc rects).foldl (placeOne W Htot) st0).placed,
        0 ≤ p.x ∧ 0 ≤ p.y := by
      apply foldl_placeOne_coords hH0
      · intro r hr
        exact hpos r (hperm.subset hr)
      · intro f hf
        rw [hst0] at hf
        simp only [List.mem_singleton] at hf
        rw [hf]
        exact ⟨le_refl 0, le_refl 0⟩
      · intro p hp
        rw [hst0] at hp
        simp at hp
    intro p hp
    rw [hch] at hp
    obtain ⟨hpx, hpy⟩ := hcoords p hp
    have hwle : p.x + p.width ≤ (packMaxRects rects W).width :=
      le_foldl_max _ _ 0 (List.mem_map_of_mem _ hp)
    have hhle : p.y + p.height ≤ (packMaxRects rects W).height :=
      le_foldl_max _ _ 0 (List.mem_map_of_mem _ hp)
    exact ⟨by linarith, by linarith⟩
  · intro hfitall
    rcases eq_or_ne rects [] with rfl | hne
    · have hs : sortDesc ([] : List (Rect α)) = [] := hperm.eq_nil
      rw [hch, hs]
      exact List.Pairwise.nil
    · have hHpos : 0 < Htot := by
        rw [hHt]
        have hsumpos : 0 < (rects.map fun r => r.height).sum := by
          apply List.sum_pos
          · intro a ha
            obtain ⟨r, hr, rfl⟩ := List.mem_map.mp ha
            exact (hpos r hr).2
          · simpa using hne
        have hc : (0 : α) ≤ (rects.length : α) * gap :=
          mul_nonneg (Nat.cast_nonneg _) (le_of_lt hg)
        linarith
      have hneedH : needOf rects = Htot := (needOf_eq_total rects).trans hHt.symm
      have hneedsorted : needOf (sortDesc rects) = needOf rects := by
        unfold needOf
        exact List.Perm.sum_eq (hperm.map _)
      have hinv0 : PackInv W Htot st0 (needOf (sortDesc rects)) := by
        refine ⟨?_, ?_, ?_, ?_, ?_, ?_⟩
        · intro f hf
          rw [hst0] at hf
          simp only [List.mem_singleton] at hf
          rw [hf]
          exact ⟨hW, hHpos, le_refl 0, le_refl 0⟩
        · rw [hst0]
          exact List.pairwise_singleton _ _
        · intro f _ p hp
          rw [hst0] at hp
          simp at hp
        · rw [hst0]
          exact List.Pairwise.nil
        · intro p hp
          rw [hst0] at hp
          simp at hp
        · intro _
          refine ⟨0, le_refl 0, ?_, ?_⟩
          · rw [hst0, sub_zero]
            exact List.mem_singleton.mpr rfl
          · rw [sub_zero, hneedsorted, hneedH]
      have hfinal := foldl_placeOne_inv hW (sortDesc rects) st0
        (fun r hr => ⟨(hpos r (hperm.subset hr)).1, (hpos r (hperm.subset hr)).2,
          hfitall r (hperm.subset hr)⟩) hinv0
      rw [hch]
      exact hfinal.placed_disj

end PackingProofs

theorem packMaxRects_layout_witness :
    (∀ p ∈ (packMaxRects [(⟨0, 0, 2, 3⟩ : Rect ℤ)] 5).children,
      p.width ≤ (packMaxRects [(⟨0, 0, 2, 3⟩ : Rect ℤ)] 5).width ∧
      p.height ≤ (packMaxRects [(⟨0, 0, 2, 3⟩ : Rect ℤ)] 5).height) ∧
    ((∀ r ∈ [(⟨0, 0, 2, 3⟩ : Rect ℤ)], r.width ≤ 5) →
      (packMaxRects [(⟨0, 0, 2, 3⟩ : Rect ℤ)] 5).children.Pairwise
        fun a b => ¬overlaps a b) :=
  packMaxRects_layout [(⟨0, 0, 2, 3⟩ : Rect ℤ)] 5 (by decide) (by decide)

/-- Claim C2, counterexample: two 10-wide rectangles packed at target width
7 (a width the target-width search really tries: 0.7 × base with base 10)
are both placed at the downward extension's position (0, 18) and overlap,
although the input rectangles are positively sized. -/
theorem packMaxRects_overlap_cex :
    (packMaxRects [(⟨0, 0, 10, 5⟩ : Rect ℤ), ⟨0, 0, 10, 5⟩] 7).children.length = 2 ∧
    overlaps
      ((packMaxRects [(⟨0, 0, 10, 5⟩ : Rect ℤ), ⟨0, 0, 10, 5⟩] 7).children.getD 0
        ⟨0, 0, 0, 0⟩)
      ((packMaxRects [(⟨0, 0, 10, 5⟩ : Rect ℤ), ⟨0, 0, 10, 5⟩] 7).children.getD 1
        ⟨0, 0, 0, 0⟩) ∧
    (∀ r ∈ [(⟨0, 0, 10, 5⟩ : Rect ℤ), ⟨0, 0, 10, 5⟩], 0 < r.width ∧ 0 < r.height) := by
  have hs : sortDesc [(⟨0, 0, 10, 5⟩ : Rect ℤ), ⟨0, 0, 10, 5⟩] =
      [⟨0, 0, 10, 5⟩, ⟨0, 0, 10, 5⟩] := by
    have h := List.mergeSort_perm [(⟨0, 0, 10, 5⟩ : Rect ℤ), ⟨0, 0, 10, 5⟩]
      fun a b => decide (max b.width b.height ≤ max a.width a.height)
    have h2 : [(⟨0, 0, 10, 5⟩ : Rect ℤ), ⟨0, 0, 10, 5⟩] =
        List.replicate 2 (⟨0, 0, 10, 5⟩ : Rect ℤ) := rfl
    unfold sortDesc
    rw [h2] at h ⊢
    exact List.perm_replicate.mp h
  have key : packMaxRects [(⟨0, 0, 10, 5⟩ : Rect ℤ), ⟨0, 0, 10, 5⟩] 7 =
      ⟨10, 23, [⟨0, 18, 10, 5⟩, ⟨0, 18, 10, 5⟩]⟩ := by
    unfold packMaxRects
    rw [hs]
    decide
  rw [key]
  exact ⟨rfl, by decide, by decide⟩
